import Mathlib

/-!
Verification development for the ExcelLikeWikiConverter repository.

The Python source is shallowly embedded as executable Lean definitions:

* cell values are `String`s (a Python `None` cell is modelled by `Option String`
  where it matters, and by the empty string — Python falsiness — elsewhere);
* the two regular expressions of `utils.py` (`\[IMGS?\]\s*([^\[\]]+)` for
  `re.findall` and `\[IMGS?\][^\[\]]*` for `re.sub`) are embedded as
  character-list scanners, written to be structurally recursive so that the
  kernel can evaluate them on concrete inputs;
* the file system (asset store, source files) is modelled as an association
  list from path to an abstract content identifier (`Nat`), `datetime.now`
  timestamps and `os.path.relpath` are passed in as explicit parameters, and
  `os.path.exists` is a lookup in that association list (or an abstract
  `String → Bool` oracle where only existence matters);
* tkinter message boxes are modelled as a list of emitted `Dialog` values.
-/

/-! ## Character-level helpers (Python `str.strip`, `\s`, the tag regexes) -/

/-- Python whitespace class `\s` over ASCII: space, tab, newline, carriage
return, vertical tab (11) and form feed (12).  Used by `str.strip()` and by
the `\s*` part of the extraction regex. -/
def isSpace (c : Char) : Bool :=
  c = ' ' || c = '\t' || c = '\n' || c = '\r' || c = Char.ofNat 11 || c = Char.ofNat 12

/-- The character class `[\[\]]` of the two regexes. -/
def isBracket (c : Char) : Bool := c = '[' || c = ']'

/-- Python `str.strip()`: drop leading and trailing whitespace. -/
def pyStrip (l : List Char) : List Char :=
  ((l.dropWhile isSpace).reverse.dropWhile isSpace).reverse

/-- `str.strip()` on `String`s. -/
def stripS (s : String) : String := String.mk (pyStrip s.data)

/-- Embeds `re.sub(r'\n+', '\n', s)` of `Utils.clean_text_content`:
collapse every maximal run of newlines to a single newline. -/
def collapseNL : List Char → List Char
  | [] => []
  | [c] => [c]
  | c :: c2 :: rest =>
    if c = '\n' ∧ c2 = '\n' then collapseNL (c2 :: rest)
    else c :: collapseNL (c2 :: rest)

/-- Matching the literal part `\[IMGS?\]` of both regexes at the head of the
input; the greedy `S?` prefers `[IMGS]` over `[IMG]`.  Returns the remaining
input on success. -/
def matchTag (l : List Char) : Option (List Char) :=
  if l.take 6 = ['[', 'I', 'M', 'G', 'S', ']'] then some (l.drop 6)
  else if l.take 5 = ['[', 'I', 'M', 'G', ']'] then some (l.drop 5)
  else none

/-- The capture group of `\[IMGS?\]\s*([^\[\]]+)` applied after the tag
literal has matched, with Python's backtracking semantics: `\s*` is greedy,
and if the whole non-bracket run is whitespace the group backtracks to the
last whitespace character; if the non-bracket run is empty the overall match
fails (empty result list). -/
def groupOf (after : List Char) : List (List Char) :=
  let nb := after.takeWhile (fun c => ¬ isBracket c)
  let ws := nb.takeWhile isSpace
  if nb = [] then []
  else if ws.length = nb.length then [nb.drop (nb.length - 1)]
  else [nb.drop ws.length]

/-- Embeds `re.findall(r'\[IMGS?\]\s*([^\[\]]+)', s)`: the list of capture
groups in left-to-right order.  `re.findall` scans for non-overlapping
matches resuming after each consumed span; since a consumed span contains no
`[` after its first character, no match can start inside a previous span, so
scanning every position (as done here, structurally) yields exactly the same
matches. -/
def findMatches : List Char → List (List Char)
  | [] => []
  | c :: rest =>
    (match matchTag (c :: rest) with
     | some after => groupOf after
     | none => []) ++ findMatches rest

/-- Worker for `re.sub(r'\[IMGS?\][^\[\]]*', '', s)`: when `skip` is set the
scanner is inside the `[^\[\]]*` run of a match and drops characters until a
bracket; a tag literal (which always starts with `[`) begins a new match in
either mode.  Characters outside every match are kept. -/
def removeTagsGo : Bool → List Char → List Char
  | _, [] => []
  | _, '[' :: 'I' :: 'M' :: 'G' :: 'S' :: ']' :: rest => removeTagsGo true rest
  | _, '[' :: 'I' :: 'M' :: 'G' :: ']' :: rest => removeTagsGo true rest
  | skip, c :: rest =>
    if skip ∧ ¬ isBracket c then removeTagsGo true rest
    else c :: removeTagsGo false rest

/-- Embeds `re.sub(r'\[IMGS?\][^\[\]]*', '', s)`. -/
def removeTags (l : List Char) : List Char := removeTagsGo false l

/-- Helper for `splitSemi`: prepend a character to the first piece. -/
def consHead (c : Char) : List (List Char) → List (List Char)
  | [] => [[c]]
  | h :: t => (c :: h) :: t

/-- Embeds Python `str.split(';')`: the pieces between `;` separators
(always at least one piece, pieces may be empty). -/
def splitSemi : List Char → List (List Char)
  | [] => [[]]
  | c :: rest => if c = ';' then [] :: splitSemi rest else consHead c (splitSemi rest)

/-- Embeds `clean_text.replace("\n", "\\\\")` of the wiki renderer: every
newline becomes two literal backslashes. -/
def replaceNewlines : List Char → List Char
  | [] => []
  | c :: rest =>
    if c = '\n' then '\\' :: '\\' :: replaceNewlines rest
    else c :: replaceNewlines rest

/-- Embeds `os.path.basename` (POSIX): the part after the last `/`. -/
def basename (p : String) : String :=
  String.mk ((p.data.reverse.takeWhile (fun c => ¬ (c = '/'))).reverse)

/-- Embeds `os.path.splitext` on a basename: split at the last dot, except
that the leading run of dots never starts an extension. -/
def splitext (name : String) : String × String :=
  let cs := name.data
  let dots := cs.takeWhile (fun c => c = '.')
  let rest := cs.drop dots.length
  let extRev := rest.reverse.takeWhile (fun c => ¬ (c = '.'))
  if extRev.length = rest.length then (name, "")
  else (String.mk (dots ++ rest.take (rest.length - extRev.length - 1)),
        String.mk ('.' :: extRev.reverse))

/-- Embeds `os.path.isabs` (POSIX): the path starts with `/`. -/
def isabs (p : String) : Bool :=
  match p.data with
  | '/' :: _ => true
  | _ => false

/-- Lexicographic comparison of strings by code points, the order used by
Python's `sorted` on `str`; defined as an executable Bool so the kernel can
evaluate it. -/
def leChars : List Char → List Char → Bool
  | [], _ => true
  | _ :: _, [] => false
  | a :: as, b :: bs => if a < b then true else if b < a then false else leChars as bs

/-- String order for the wiki attachment list. -/
def leStr (a b : String) : Prop := leChars a.data b.data = true

instance : DecidableRel leStr := fun a b =>
  inferInstanceAs (Decidable (leChars a.data b.data = true))

/-! ## `Utils` (src/utils.py) -/

/-- Loop body of `Utils.generate_column_headers`' inner `while True` loop.
The `fuel` argument only bounds the number of iterations of the source's
loop; each iteration maps `num` to `num / 26 - 1`, which is strictly
decreasing, so `fuel = num` never runs out (the loop runs at most once when
`num ≤ 25`, and for `num ≥ 1` it runs at most `num` times). -/
def colNameLoop : Nat → Nat → List Char → List Char
  | 0, num, header => Char.ofNat (65 + num % 26) :: header
  | fuel + 1, num, header =>
    let header2 := Char.ofNat (65 + num % 26) :: header
    if num / 26 = 0 then header2 else colNameLoop fuel (num / 26 - 1) header2

/-- The spreadsheet-style name of column index `i` (`A`, ..., `Z`, `AA`, ...). -/
def colName (i : Nat) : String := String.mk (colNameLoop i i [])

/-- Embeds `Utils.generate_column_headers`. -/
def generate_column_headers (count : Nat) : List String :=
  (List.range count).map colName

/-- Embeds `Utils.extract_image_paths`: `if not cell_value: return []`, then
for every regex match split the group on `;`, strip each piece and drop the
falsy (empty) ones, extending one result list. -/
def extract_image_paths (cell_value : String) : List String :=
  if cell_value = "" then []
  else
    (((findMatches cell_value.data).map
        (fun m => ((splitSemi m).map pyStrip).filter (fun p => ¬ (p = [])))).flatten).map
      String.mk

/-- Embeds `Utils.clean_text_content`: `if not cell_value: return ""`, then
remove every tag match, collapse newline runs, and strip. -/
def clean_text_content (cell_value : String) : String :=
  if cell_value = "" then ""
  else String.mk (pyStrip (collapseNL (removeTags cell_value.data)))

/-- Embeds `"; ".join(paths)`. -/
def joinPaths : List String → String
  | [] => ""
  | [p] => p
  | p :: rest => p ++ "; " ++ joinPaths rest

/-- Embeds `Utils.format_cell_with_images`.  `relpath` stands for
`os.path.relpath(path, start=os.getcwd())`, which depends on the process
working directory and is therefore passed in as a parameter; it is only
applied to absolute paths, exactly as in the source. -/
def format_cell_with_images (relpath : String → String) (text_content : String)
    (image_paths : List String) : String :=
  if image_paths = [] then text_content
  else
    let relative_paths := image_paths.map (fun p => if isabs p then relpath p else p)
    let image_tag :=
      match relative_paths with
      | [p] => "[IMG] " ++ p
      | ps => "[IMGS] " ++ joinPaths ps
    if text_content ≠ "" ∧ stripS text_content ≠ "" then
      stripS text_content ++ "\n" ++ image_tag
    else image_tag

/-- Accumulator loop of the dedup in `Utils.add_images_to_cell_incremental`:
`for img in all_images: if img not in unique_images: unique_images.append(img)`. -/
def dedupAppend (acc : List String) : List String → List String
  | [] => acc
  | x :: xs => if x ∈ acc then dedupAppend acc xs else dedupAppend (acc ++ [x]) xs

/-- Deduplication by exact string equality keeping the first occurrence. -/
def dedupFirst (l : List String) : List String := dedupAppend [] l

/-- Embeds `Utils.add_images_to_cell_incremental` as a function from the
current cell value to the new cell value (the tksheet get/set pair is the
surrounding state plumbing).  A `None` cell reads as `""` via `or ""`. -/
def add_images_to_cell_incremental (relpath : String → String) (current_value : String)
    (new_image_paths : List String) : String :=
  if new_image_paths = [] then current_value
  else
    let text_content := clean_text_content current_value
    let existing_images := extract_image_paths current_value
    let unique_images := dedupFirst (existing_images ++ new_image_paths)
    format_cell_with_images relpath text_content unique_images

/-! ## File-system model -/

/-- A directory is an association list from file name (or path) to an
abstract content identifier.  `shutil.copy` onto an existing name replaces
the content (silent overwrite); otherwise the file is appended. -/
def storeWrite (store : List (String × Nat)) (name : String) (content : Nat) :
    List (String × Nat) :=
  if store.any (fun e => e.1 = name) then
    store.map (fun e => if e.1 = name then (name, content) else e)
  else store ++ [(name, content)]

/-- `os.path.exists` plus reading the content identifier. -/
def lookupFile (fs : List (String × Nat)) (p : String) : Option Nat :=
  (fs.find? (fun e => e.1 = p)).map (fun e => e.2)

/-- Embeds `Utils.copy_images_to_assets`.  `src` is the file system the
source paths live in (`os.path.exists`/`shutil.copy` read from it),
`timestamp` is the `datetime.now().strftime("%Y%m%d_%H%M%S")` value — one
call site, so one value per call — and `relpath` is
`os.path.relpath(·, start=os.getcwd())`.  Returns the updated assets
directory and the returned relative-path list. -/
def copy_images_to_assets (src : List (String × Nat)) (relpath : String → String)
    (timestamp : String) (image_paths : List String) (assets_dir : String)
    (store : List (String × Nat)) : List (String × Nat) × List String :=
  image_paths.foldl
    (fun acc image_path =>
      match lookupFile src image_path with
      | none => acc
      | some content =>
        let base_name := basename image_path
        let ne := splitext base_name
        let dest_name := ne.1 ++ "_" ++ timestamp ++ ne.2
        let dest_path := assets_dir ++ "/" ++ dest_name
        (storeWrite acc.1 dest_path content, acc.2 ++ [relpath dest_path]))
    (store, [])

/-! ## `FileHandler` (src/file_handler.py) -/

/-- Row padding of `_load_from_excel_file`:
`while len(row) < min_cols: row.append("")`. -/
def pad_row (min_cols : Nat) (row : List String) : List String :=
  row ++ List.replicate (min_cols - row.length) ""

/-- The pure grid-shaping core of `FileHandler._load_from_excel_file`
(lines 189-199): pad every row to `min_cols = max(20, len(headers))` and
append empty rows up to `min_rows = max(100, len(data))`. -/
def load_grid (headers : List String) (data : List (List String)) : List (List String) :=
  let min_rows := max 100 data.length
  let min_cols := max 20 headers.length
  let padded := data.map (pad_row min_cols)
  padded ++ List.replicate (min_rows - padded.length) (List.replicate min_cols "")

/-- The regenerated column headers of `_load_from_excel_file` (line 202). -/
def load_headers (headers : List String) : List String :=
  generate_column_headers (max 20 headers.length)

/-- The copy loop shared by `_load_from_excel_file` (lines 214-225) and
`import_package` (lines 288-299): copy each file of a source directory into
the assets directory, renaming with a timestamp when the destination name
already exists.  Keys are file names inside the assets directory. -/
def sync_assets (files : List (String × Nat)) (timestamp : String)
    (assets : List (String × Nat)) : List (String × Nat) :=
  files.foldl
    (fun acc f =>
      let dst :=
        if acc.any (fun e => e.1 = f.1) then
          let ne := splitext f.1
          ne.1 ++ "_" ++ timestamp ++ ne.2
        else f.1
      storeWrite acc dst f.2)
    assets

/-- The in-memory document: tksheet grid and headers, the bound file path
(`self.current_file`) and the live assets directory. -/
structure AppState where
  grid : List (List String)
  headers : List String
  current_file : Option String
  assets : List (String × Nat)
deriving DecidableEq

/-- A tkinter message box shown to the user. -/
inductive Dialog
  | info (msg : String)
  | error (msg : String)
deriving DecidableEq

/-- Embeds `FileHandler._load_from_excel_file`.  `readResult` is the outcome
of `pd.read_excel` (headers and string data, or the exception message) — the
only fallible step of the embedded body; `excel_assets` is the content of
the sibling `{base}_assets` directory when it exists.  On an exception the
`except` branch shows one error dialog and mutates nothing. -/
def load_from_excel_file (readResult : Except String (List String × List (List String)))
    (excel_assets : Option (List (String × Nat))) (timestamp : String)
    (filename : String) (s : AppState) : AppState × List Dialog :=
  match readResult with
  | .error e => (s, [Dialog.error ("打开Excel文件失败: " ++ e)])
  | .ok hd =>
    let grid := load_grid hd.1 hd.2
    let column_headers := load_headers hd.1
    let assets2 :=
      match excel_assets with
      | none => s.assets
      | some files => sync_assets files timestamp s.assets
    ({ grid := grid, headers := column_headers, current_file := some filename,
       assets := assets2 },
     [Dialog.info ("Excel文件打开成功！\n导入了 " ++ toString grid.length ++ " 行 "
        ++ toString column_headers.length ++ " 列数据")])

/-- Embeds `FileHandler.import_package` after a file was chosen:
`zipExcelFound` says whether the extracted tree contains a spreadsheet file,
`packageAssets` the content of the first extracted `assets` directory (if
any), `readResult`/`innerExcelAssets` the inputs of the inner
`_load_from_excel_file` call.  Note the inner call catches its own
exceptions, so `import_package` always reaches its success dialog once an
Excel file was found. -/
def import_package (zipExcelFound : Bool) (packageAssets : Option (List (String × Nat)))
    (readResult : Except String (List String × List (List String)))
    (innerExcelAssets : Option (List (String × Nat))) (timestamp : String)
    (excelName : String) (s : AppState) : AppState × List Dialog :=
  if ¬ zipExcelFound then (s, [Dialog.error "ZIP包中没有找到Excel文件"])
  else
    let assets2 :=
      match packageAssets with
      | none => s.assets
      | some files => sync_assets files timestamp s.assets
    let s2 := { s with assets := assets2 }
    let r := load_from_excel_file readResult innerExcelAssets timestamp excelName s2
    (r.1, r.2 ++ [Dialog.info "完整包导入成功！"])

/-! ## `WikiExporter` (src/wiki_exporter.py) -/

/-- One cell of a data row in `WikiExporter.get_wiki_content`: cleaned text
with newlines replaced by `\\`, followed by `!basename!` markers for the
referenced images whose files exist (`ex` is the `os.path.exists` oracle),
joined with `|`. -/
def renderCell (ex : String → Bool) (cell_value : String) : String :=
  if cell_value = "" then ""
  else
    let clean_text := clean_text_content cell_value
    let cell_content :=
      if clean_text ≠ "" then String.mk (replaceNewlines clean_text.data) else ""
    let image_paths := extract_image_paths cell_value
    if image_paths = [] then cell_content
    else
      let image_refs := (image_paths.filter ex).map (fun p => "!" ++ basename p ++ "!")
      if image_refs = [] then cell_content
      else if cell_content ≠ "" then
        cell_content ++ "|" ++ String.intercalate "|" image_refs
      else String.intercalate "|" image_refs

/-- The basenames collected for the attachment list of `get_wiki_content`:
every referenced image path of every truthy cell whose file exists. -/
def collectImages (ex : String → Bool) (data : List (List String)) : List String :=
  ((data.map (fun row =>
      (row.map (fun cell =>
          if cell = "" then []
          else ((extract_image_paths cell).filter ex).map basename)).flatten)).flatten)

/-- Python `sorted(set(...))`: the distinct elements in ascending code-point
order. -/
def sortedSet (l : List String) : List String :=
  List.insertionSort leStr l.dedup

/-- Embeds `WikiExporter.get_wiki_content`. -/
def get_wiki_content (ex : String → Bool) (headers : List String)
    (data : List (List String)) : String :=
  let header_row := "||" ++ String.intercalate "||" headers ++ "||\n"
  let data_rows :=
    (data.filter (fun row => row.any (fun cell => ¬ (cell = "")))).map
      (fun row => "|" ++ String.intercalate "|" (row.map (renderCell ex)) ++ "|\n")
  let image_files := sortedSet (collectImages ex data)
  "h2. 表格数据\n\n" ++ header_row ++ String.join data_rows
    ++ "\nh3. 图片文件\n" ++ "请将以下图片文件上传到Confluence页面的附件中：\n\n"
    ++ String.join (image_files.map (fun f => "* " ++ f ++ "\n"))

/-- One cell of a data row in `WikiExporter._export_wiki_sync`: only the
cleaned text, never any image marker. -/
def syncCell (cell_value : String) : String :=
  if cell_value = "" then ""
  else
    let clean_text := clean_text_content cell_value
    if clean_text ≠ "" then String.mk (replaceNewlines clean_text.data) else ""

/-- Embeds the text written by `WikiExporter._export_wiki_sync` (the wiki
entry of an exported package, see `FileHandler.export_package`). -/
def export_wiki_sync_text (headers : List String) (data : List (List String)) : String :=
  let header_row := "||" ++ String.intercalate "||" headers ++ "||\n"
  let data_rows :=
    (data.filter (fun row => row.any (fun cell => ¬ (cell = "")))).map
      (fun row => "|" ++ String.intercalate "|" (row.map syncCell) ++ "|\n")
  "h2. 表格数据\n\n" ++ header_row ++ String.join data_rows

/-- Python `None` as a cell value: `extract_image_paths` under the
`if not cell_value` guard. -/
def extract_image_paths_opt : Option String → List String
  | none => []
  | some s => extract_image_paths s

/-- Python `None` as a cell value for `clean_text_content`. -/
def clean_text_content_opt : Option String → String
  | none => ""
  | some s => clean_text_content s

/-- Whether a tag literal `[IMG]`/`[IMGS]` occurs anywhere in the input:
the hypothesis `containsTag l = false` makes precise the spec's phrase
"text without tag syntax". -/
def containsTag : List Char → Bool
  | [] => false
  | c :: rest => (matchTag (c :: rest)).isSome || containsTag rest

/-! ## Basic lemmas about the scanners -/

theorem matchTag_none {c : Char} (rest : List Char) (h : c ≠ '[') :
    matchTag (c :: rest) = none := by
  simp only [matchTag, List.take_succ_cons]
  rw [if_neg, if_neg] <;> simp [h]

theorem matchTag_IMG (r : List Char) :
    matchTag ('[' :: 'I' :: 'M' :: 'G' :: ']' :: r) = some r := by
  simp [matchTag, List.take_succ_cons]

theorem matchTag_IMGS (r : List Char) :
    matchTag ('[' :: 'I' :: 'M' :: 'G' :: 'S' :: ']' :: r) = some r := by
  simp [matchTag, List.take_succ_cons]

theorem findMatches_cons (c : Char) (rest : List Char) :
    findMatches (c :: rest) =
      (match matchTag (c :: rest) with
       | some after => groupOf after
       | none => []) ++ findMatches rest := rfl

theorem findMatches_cons_of_ne (c : Char) (rest : List Char) (h : c ≠ '[') :
    findMatches (c :: rest) = findMatches rest := by
  rw [findMatches_cons, matchTag_none rest h]
  rfl

theorem findMatches_eq_nil (l : List Char) (h : ∀ c ∈ l, c ≠ '[') :
    findMatches l = [] := by
  induction l with
  | nil => rfl
  | cons c rest ih =>
    rw [findMatches_cons_of_ne c rest (h c (List.mem_cons_self c rest))]
    exact ih fun x hx => h x (List.mem_cons_of_mem c hx)

theorem findMatches_append (xs ys : List Char) (h : ∀ c ∈ xs, c ≠ '[') :
    findMatches (xs ++ ys) = findMatches ys := by
  induction xs with
  | nil => rfl
  | cons c rest ih =>
    rw [List.cons_append,
      findMatches_cons_of_ne c (rest ++ ys) (h c (List.mem_cons_self c rest))]
    exact ih fun x hx => h x (List.mem_cons_of_mem c hx)

theorem removeTagsGo_cons (skip : Bool) (c : Char) (rest : List Char) (h : c ≠ '[') :
    removeTagsGo skip (c :: rest) =
      if skip ∧ ¬ isBracket c then removeTagsGo true rest
      else c :: removeTagsGo false rest := by
  rw [removeTagsGo.eq_def]
  split
  · simp_all
  · simp_all
  · simp_all
  · rename_i heq
    injection heq with h1 h2
    subst h1; subst h2
    rfl

theorem removeTagsGo_false_cons (c : Char) (rest : List Char) (h : c ≠ '[') :
    removeTagsGo false (c :: rest) = c :: removeTagsGo false rest := by
  rw [removeTagsGo_cons false c rest h]
  simp

theorem removeTagsGo_skip_cons (c : Char) (rest : List Char) (h : ¬ isBracket c) :
    removeTagsGo true (c :: rest) = removeTagsGo true rest := by
  have hc : c ≠ '[' := by
    intro hcc
    subst hcc
    simp [isBracket] at h
  rw [removeTagsGo_cons true c rest hc]
  simp [h]

theorem removeTagsGo_append (xs ys : List Char) (h : ∀ c ∈ xs, c ≠ '[') :
    removeTagsGo false (xs ++ ys) = xs ++ removeTagsGo false ys := by
  induction xs with
  | nil => rfl
  | cons c rest ih =>
    rw [List.cons_append,
      removeTagsGo_false_cons c (rest ++ ys) (h c (List.mem_cons_self c rest)),
      ih fun x hx => h x (List.mem_cons_of_mem c hx)]
    rfl

theorem removeTagsGo_skip_eq_nil (l : List Char) (h : ∀ c ∈ l, ¬ isBracket c) :
    removeTagsGo true l = [] := by
  induction l with
  | nil => rfl
  | cons c rest ih =>
    rw [removeTagsGo_skip_cons c rest (h c (List.mem_cons_self c rest))]
    exact ih fun x hx => h x (List.mem_cons_of_mem c hx)

theorem findMatches_eq_nil_of_no_tag (l : List Char) (h : containsTag l = false) :
    findMatches l = [] := by
  induction l with
  | nil => rfl
  | cons c rest ih =>
    simp only [containsTag, Bool.or_eq_false_iff] at h
    rcases h with ⟨h1, h2⟩
    cases hm : matchTag (c :: rest) with
    | some a => rw [hm] at h1; exact absurd h1 (by simp)
    | none => rw [findMatches_cons, hm]; exact ih h2

theorem removeTagsGo_cons_of_none (skip : Bool) (c : Char) (rest : List Char)
    (h : matchTag (c :: rest) = none) :
    removeTagsGo skip (c :: rest) =
      if skip ∧ ¬ isBracket c then removeTagsGo true rest
      else c :: removeTagsGo false rest := by
  rw [removeTagsGo.eq_def]
  split
  · simp_all
  · rename_i heq
    injection heq with h1 h2
    subst h1; subst h2
    rw [matchTag_IMGS] at h
    exact absurd h (by simp)
  · rename_i heq
    injection heq with h1 h2
    subst h1; subst h2
    rw [matchTag_IMG] at h
    exact absurd h (by simp)
  · rename_i heq
    injection heq with h1 h2
    subst h1; subst h2
    rfl

theorem removeTags_eq_self (l : List Char) (h : containsTag l = false) :
    removeTagsGo false l = l := by
  induction l with
  | nil => rfl
  | cons c rest ih =>
    simp only [containsTag, Bool.or_eq_false_iff] at h
    rcases h with ⟨h1, h2⟩
    cases hm : matchTag (c :: rest) with
    | some a => rw [hm] at h1; exact absurd h1 (by simp)
    | none =>
      rw [removeTagsGo_cons_of_none false c rest hm]
      simp [ih h2]


/-! ## Claim C8: spreadsheet-style column headers -/

/-- C8: for every count `n`, `generate_column_headers n` returns the first
`n` spreadsheet-style column names in order (taking a shorter count yields
an initial segment of a longer one), with indices 0..25 mapping to `A`..`Z`,
index 26 to `AA` and index 27 to `AB`. -/
theorem C8_generate_column_headers :
    (∀ n, (generate_column_headers n).length = n) ∧
    (∀ m n, m ≤ n → List.take m (generate_column_headers n) = generate_column_headers m) ∧
    generate_column_headers 28 =
      ["A", "B", "C", "D", "E", "F", "G", "H", "I", "J", "K", "L", "M",
       "N", "O", "P", "Q", "R", "S", "T", "U", "V", "W", "X", "Y", "Z",
       "AA", "AB"] := by
  refine ⟨fun n => by simp [generate_column_headers], fun m n h => ?_, by decide⟩
  simp [generate_column_headers, ← List.map_take, List.take_range, Nat.min_eq_left h]

/-- Witness for C8 at a concrete input. -/
theorem C8_generate_column_headers_witness :
    2 ≤ 3 ∧ List.take 2 (generate_column_headers 3) = generate_column_headers 2 :=
  ⟨by decide, C8_generate_column_headers.2.1 2 3 (by decide)⟩

/-! ## Claim C5: grid padding on load -/

/-- C5: for a loaded spreadsheet with `r` data rows and `c` header columns
(every data row has `c` cells), the shaped grid has exactly `max 100 r` rows
each of exactly `max 20 c` cells; row `i < r` is the original row padded on
the right with empty strings, rows `r ≤ i` are entirely empty, and the
regenerated headers are the spreadsheet-style names sized to `max 20 c`. -/
theorem C5_load_grid (headers : List String) (data : List (List String))
    (hrect : ∀ row ∈ data, row.length = headers.length) :
    (load_grid headers data).length = max 100 data.length ∧
    (∀ row ∈ load_grid headers data, row.length = max 20 headers.length) ∧
    (∀ i (hi : i < data.length) (hg : i < (load_grid headers data).length),
      (load_grid headers data).get ⟨i, hg⟩ =
        data.get ⟨i, hi⟩ ++ List.replicate (max 20 headers.length - headers.length) "") ∧
    (∀ i (hg : i < (load_grid headers data).length), data.length ≤ i →
      (load_grid headers data).get ⟨i, hg⟩ = List.replicate (max 20 headers.length) "") ∧
    load_headers headers = generate_column_headers (max 20 headers.length) ∧
    (load_headers headers).length = max 20 headers.length := by
  refine ⟨?_, ?_, ?_, ?_, rfl, ?_⟩
  · simp only [load_grid, List.length_append, List.length_map, List.length_replicate]
    omega
  · intro row hrow
    simp only [load_grid, List.mem_append, List.mem_map] at hrow
    rcases hrow with ⟨r0, hr0, rfl⟩ | hrep
    · simp only [pad_row, List.length_append, List.length_replicate]
      have := hrect r0 hr0
      omega
    · rw [List.eq_of_mem_replicate hrep]
      simp
  · intro i hi hg
    have hpad : i < (data.map (pad_row (max 20 headers.length))).length := by
      simpa using hi
    simp only [load_grid, List.get_eq_getElem]
    rw [List.getElem_append_left hpad, List.getElem_map]
    simp only [pad_row, List.get_eq_getElem]
    have := hrect (data.get ⟨i, hi⟩) (List.get_mem data i hi)
    simp only [List.get_eq_getElem] at this
    rw [this]
  · intro i hg hge
    simp only [load_grid, List.get_eq_getElem]
    have hpad : ¬ i < (data.map (pad_row (max 20 headers.length))).length := by
      simpa using Nat.not_lt.2 hge
    rw [List.getElem_append_right (Nat.not_lt.1 hpad)]
    exact List.getElem_replicate _ _
  · simp [load_headers, generate_column_headers]

/-- Witness for C5 at a concrete one-cell grid. -/
theorem C5_load_grid_witness :
    (∀ row ∈ [["x"]], row.length = (["H"] : List String).length) ∧
    (load_grid ["H"] [["x"]]).length = max 100 ([["x"]] : List (List String)).length :=
  ⟨by decide, (C5_load_grid ["H"] [["x"]] (by decide)).1⟩

/-! ## Claim C2: incremental merge of images into a cell -/

theorem dedupAppend_nodup (l : List String) : ∀ acc : List String, acc.Nodup →
    (dedupAppend acc l).Nodup := by
  induction l with
  | nil => intro acc h; exact h
  | cons x xs ih =>
    intro acc h
    simp only [dedupAppend]
    by_cases hx : x ∈ acc
    · rw [if_pos hx]; exact ih acc h
    · rw [if_neg hx]
      refine ih (acc ++ [x]) ?_
      simp [List.nodup_append, h, hx]

theorem dedupAppend_mem (l : List String) : ∀ (acc : List String) (y : String),
    y ∈ dedupAppend acc l ↔ y ∈ acc ∨ y ∈ l := by
  induction l with
  | nil => intro acc y; simp [dedupAppend]
  | cons x xs ih =>
    intro acc y
    simp only [dedupAppend]
    by_cases hx : x ∈ acc
    · rw [if_pos hx, ih]
      constructor
      · rintro (h | h)
        · exact Or.inl h
        · exact Or.inr (List.mem_cons_of_mem x h)
      · rintro (h | h)
        · exact Or.inl h
        · rcases List.mem_cons.1 h with rfl | h
          · exact Or.inl hx
          · exact Or.inr h
    · rw [if_neg hx, ih]
      simp only [List.mem_append, List.mem_singleton, List.mem_cons]
      tauto

/-- C2: merging new images into a cell leaves the cell unchanged when the
new list is empty; otherwise it re-encodes the decoded text with the decoded
existing images followed by the new ones, deduplicated by exact string
equality (the result has no duplicates and exactly the members of the
concatenation); in particular
`merge(encode("x", ["a","b"]), ["b","c"]) = encode("x", ["a","b","c"])`. -/
theorem C2_add_images_incremental (relpath : String → String) (V : String)
    (N : List String) (hN : N ≠ []) :
    add_images_to_cell_incremental relpath V [] = V ∧
    add_images_to_cell_incremental relpath V N =
      format_cell_with_images relpath (clean_text_content V)
        (dedupFirst (extract_image_paths V ++ N)) ∧
    (∀ l : List String, (dedupFirst l).Nodup ∧ ∀ x, x ∈ dedupFirst l ↔ x ∈ l) ∧
    add_images_to_cell_incremental id (format_cell_with_images id "x" ["a", "b"])
        ["b", "c"] =
      format_cell_with_images id "x" ["a", "b", "c"] := by
  refine ⟨rfl, ?_, ?_, by decide⟩
  · rw [add_images_to_cell_incremental, if_neg hN]
  · intro l
    refine ⟨dedupAppend_nodup l [] List.nodup_nil, fun x => ?_⟩
    rw [dedupFirst, dedupAppend_mem]
    simp

/-- Witness for C2 at a concrete input. -/
theorem C2_add_images_incremental_witness :
    (["a"] : List String) ≠ [] ∧ add_images_to_cell_incremental id "v" [] = "v" :=
  ⟨by decide, (C2_add_images_incremental id "v" ["a"] (by decide)).1⟩

/-! ## Claim C4: asset-store import and same-second collisions -/

/-- C4 failing input, evaluated: importing two existing source files that
share the basename `img.png` in one `copy_images_to_assets` call whose
`datetime.now` timestamp is the same second produces the same destination
name for both, and the second `shutil.copy` silently overwrites the first —
the store ends with a single file holding the second file's content, even
though both relative paths are returned.  This contradicts the function's
own docstring (`处理文件名冲突，确保复制的图片文件名唯一`) and the claim
that a same-second collision falls through to a rename rule. -/
theorem C4_copy_images_same_second_overwrites :
    copy_images_to_assets [("dir1/img.png", 1), ("dir2/img.png", 2)] id
        "20250101_120000" ["dir1/img.png", "dir2/img.png"] "assets" [] =
      ([("assets/img_20250101_120000.png", 2)],
       ["assets/img_20250101_120000.png", "assets/img_20250101_120000.png"]) := by
  decide

/-- The `sync_from` half of C4 does hold: when the destination name already
exists in the store, the incoming file is renamed with the timestamp before
copying, so the existing file's content is preserved. -/
theorem C4_sync_assets_renames (name : String) (c1 c2 : Nat) (ts : String) :
    sync_assets [(name, c2)] ts [(name, c1)] =
      storeWrite [(name, c1)] ((splitext name).1 ++ "_" ++ ts ++ (splitext name).2) c2 := by
  simp [sync_assets, List.foldl]

/-- Witness for `C4_sync_assets_renames` — no hypothesis, but instantiated
concretely to show the renamed copy preserves both files. -/
theorem C4_sync_assets_renames_no_overwrite :
    sync_assets [("img.png", 2)] "20250101_120000" [("img.png", 1)] =
      [("img.png", 1), ("img_20250101_120000.png", 2)] := by decide

/-! ## Claim C3: whole-document operations and atomicity -/

/-- C3 counterexample, evaluated: importing a package that contains an
`assets` directory and a corrupt Excel file mutates the live asset store
(the package's file is copied in), leaves the grid unchanged, and reports
BOTH an inner error dialog and the outer success dialog — the operation is
neither all-or-nothing nor reported as a single error. -/
theorem C3_counterexample :
    ¬ ((import_package true (some [("a.png", 7)]) (Except.error "corrupt") none
          "20250101_120000" "data.xlsx" (AppState.mk [] [] none [])).1.assets =
        (AppState.mk [] [] none [] : AppState).assets) ∧
    (import_package true (some [("a.png", 7)]) (Except.error "corrupt") none
        "20250101_120000" "data.xlsx" (AppState.mk [] [] none [])).1.grid = [] ∧
    Dialog.info "完整包导入成功！" ∈
      (import_package true (some [("a.png", 7)]) (Except.error "corrupt") none
        "20250101_120000" "data.xlsx" (AppState.mk [] [] none [])).2 ∧
    Dialog.error "打开Excel文件失败: corrupt" ∈
      (import_package true (some [("a.png", 7)]) (Except.error "corrupt") none
        "20250101_120000" "data.xlsx" (AppState.mk [] [] none [])).2 := by
  decide

/-- C3 amended: a direct Excel load whose parse step fails is atomic — it
shows exactly one descriptive error dialog and leaves the whole in-memory
state (grid, headers, bound file, assets) untouched.  Package import is not:
it copies the package's assets into the live store before delegating to the
inner load, whose failure it swallows, so with a corrupt spreadsheet the
assets stay imported, the rest of the document is unchanged, and a success
dialog follows the inner error dialog. -/
theorem C3_amended :
    (∀ (e : String) ea ts fn (s : AppState),
      load_from_excel_file (Except.error e) ea ts fn s =
        (s, [Dialog.error ("打开Excel文件失败: " ++ e)])) ∧
    (∀ (files : List (String × Nat)) (e ts fn : String) inner (s : AppState),
      import_package true (some files) (Except.error e) inner ts fn s =
        ({ s with assets := sync_assets files ts s.assets },
         [Dialog.error ("打开Excel文件失败: " ++ e), Dialog.info "完整包导入成功！"])) := by
  constructor
  · intro e ea ts fn s; rfl
  · intro files e ts fn inner s
    simp [import_package, load_from_excel_file]

/-! ## Claim C6: the packaged wiki file versus the wiki renderer -/

/-- C6 counterexample, evaluated: already for a document with one header and
no data, the text `_export_wiki_sync` writes differs from
`get_wiki_content`'s output — the sync path never emits the attachment
section (nor inline image markers). -/
theorem C6_counterexample :
    ¬ (export_wiki_sync_text ["A"] [] = get_wiki_content (fun _ => false) ["A"] []) := by
  decide

theorem renderCell_no_existing (cell : String) :
    renderCell (fun _ => false) cell = syncCell cell := by
  rw [renderCell, syncCell]
  by_cases h0 : cell = ""
  · rw [if_pos h0, if_pos h0]
  · rw [if_neg h0, if_neg h0]
    simp only [List.filter_false, List.map_nil]
    by_cases hp : extract_image_paths cell = [] <;> simp [hp]

theorem collectImages_no_existing (data : List (List String)) :
    collectImages (fun _ => false) data = [] := by
  rw [collectImages]
  simp only [List.flatten_eq_nil_iff, List.mem_map]
  rintro l ⟨row, hrow, rfl⟩
  simp only [List.flatten_eq_nil_iff, List.mem_map]
  rintro l2 ⟨cell, hcell, rfl⟩
  by_cases h0 : cell = "" <;> simp [h0]

/-- C6 amended: the wiki file written into an exported package
(`_export_wiki_sync`) contains only the title, the header row and the
text-only data rows — never inline image markers and never the attachment
section; `get_wiki_content` for the same document agrees with it exactly on
that part when no referenced image file exists, and additionally always
appends the attachment heading and instruction line (plus the bullet list).
Hence the two renderings differ for every document. -/
theorem C6_amended (headers : List String) (data : List (List String)) :
    get_wiki_content (fun _ => false) headers data =
      export_wiki_sync_text headers data ++ "\nh3. 图片文件\n"
        ++ "请将以下图片文件上传到Confluence页面的附件中：\n\n" := by
  rw [get_wiki_content, export_wiki_sync_text, collectImages_no_existing]
  simp only [sortedSet, List.dedup_nil, List.insertionSort, List.map_nil]
  have hjoin : String.join ([] : List String) = "" := rfl
  have hcells : ∀ row : List String,
      row.map (renderCell (fun _ => false)) = row.map syncCell :=
    fun row => List.map_congr_left fun c _ => renderCell_no_existing c
  simp only [hcells, hjoin]
  simp [String.append_assoc, String.append_empty]

/-! ## Lemmas about `pyStrip` -/

theorem dropWhile_idem (p : Char → Bool) (l : List Char) :
    (l.dropWhile p).dropWhile p = l.dropWhile p := by
  induction l with
  | nil => rfl
  | cons a l ih =>
    by_cases h : p a
    · rw [List.dropWhile_cons, if_pos h]; exact ih
    · rw [List.dropWhile_cons, if_neg h, List.dropWhile_cons, if_neg h]

theorem pyStrip_back_dropWhile (l : List Char) :
    (pyStrip l).reverse.dropWhile isSpace = (pyStrip l).reverse := by
  rw [pyStrip, List.reverse_reverse]
  exact dropWhile_idem _ _

theorem pyStrip_decomp_back (l : List Char) :
    l.dropWhile isSpace =
      pyStrip l ++ ((l.dropWhile isSpace).reverse.takeWhile isSpace).reverse := by
  have h := List.takeWhile_append_dropWhile isSpace (l.dropWhile isSpace).reverse
  have h2 := congrArg List.reverse h
  rw [List.reverse_append, List.reverse_reverse] at h2
  rw [pyStrip]
  exact h2.symm

theorem pyStrip_front_dropWhile (l : List Char) :
    (pyStrip l).dropWhile isSpace = pyStrip l := by
  cases hb : pyStrip l with
  | nil => rfl
  | cons x xs =>
    have hd := pyStrip_decomp_back l
    rw [hb] at hd
    have hidem := dropWhile_idem isSpace l
    rw [hd, List.cons_append] at hidem
    have hx : isSpace x = false := by
      by_contra hxx
      rw [List.dropWhile_cons, if_pos (by simpa using hxx)] at hidem
      have hlen := (List.dropWhile_sublist (l := xs ++ ((l.dropWhile isSpace).reverse.takeWhile isSpace).reverse) isSpace).length_le
      rw [hidem] at hlen
      simp at hlen
    rw [List.dropWhile_cons, hx]
    simp

theorem pyStrip_idem (l : List Char) : pyStrip (pyStrip l) = pyStrip l := by
  conv_lhs => rw [pyStrip]
  rw [pyStrip_front_dropWhile, pyStrip_back_dropWhile, List.reverse_reverse]

theorem pyStrip_subset (l : List Char) : ∀ c ∈ pyStrip l, c ∈ l := by
  intro c hc
  rw [pyStrip, List.mem_reverse] at hc
  have h1 : c ∈ (l.dropWhile isSpace).reverse :=
    (List.dropWhile_sublist isSpace).mem hc
  rw [List.mem_reverse] at h1
  exact (List.dropWhile_sublist isSpace).mem h1

/-! ## Character membership of extraction results -/

theorem splitSemi_ne_nil (l : List Char) : splitSemi l ≠ [] := by
  cases l with
  | nil => simp [splitSemi]
  | cons c rest =>
    rw [splitSemi]
    by_cases h : c = ';'
    · simp [h]
    · rw [if_neg h]
      cases hs : splitSemi rest <;> simp [consHead]

theorem splitSemi_chars (l : List Char) :
    ∀ piece ∈ splitSemi l, ∀ c ∈ piece, c ∈ l ∧ ¬ (c = ';') := by
  induction l with
  | nil =>
    intro piece hp c hc
    simp only [splitSemi, List.mem_singleton] at hp
    subst hp
    simp at hc
  | cons a rest ih =>
    intro piece hp c hc
    rw [splitSemi] at hp
    by_cases ha : a = ';'
    · rw [if_pos ha] at hp
      rcases List.mem_cons.1 hp with rfl | hp2
      · simp at hc
      · obtain ⟨h1, h2⟩ := ih piece hp2 c hc
        exact ⟨List.mem_cons_of_mem a h1, h2⟩
    · rw [if_neg ha] at hp
      rcases hsr : splitSemi rest with _ | ⟨h, t⟩
      · exact absurd hsr (splitSemi_ne_nil rest)
      · rw [hsr] at hp
        simp only [consHead] at hp
        rcases List.mem_cons.1 hp with rfl | hp2
        · rcases List.mem_cons.1 hc with hca | hc2
          · refine ⟨?_, ?_⟩
            · rw [hca]; exact List.mem_cons_self a rest
            · rw [hca]; exact ha
          · obtain ⟨h1, h2⟩ :=
              ih h (by rw [hsr]; exact List.mem_cons_self h t) c hc2
            exact ⟨List.mem_cons_of_mem a h1, h2⟩
        · obtain ⟨h1, h2⟩ :=
            ih piece (by rw [hsr]; exact List.mem_cons_of_mem h hp2) c hc
          exact ⟨List.mem_cons_of_mem a h1, h2⟩

theorem groupOf_chars (after : List Char) :
    ∀ m ∈ groupOf after, ∀ c ∈ m, isBracket c = false := by
  intro m hm c hc
  rw [groupOf] at hm
  split_ifs at hm with h1 h2
  · simp at hm
  · rw [List.mem_singleton] at hm
    subst hm
    have hnb : c ∈ after.takeWhile (fun c => ¬ isBracket c) :=
      List.drop_subset _ _ hc
    simpa using List.mem_takeWhile_imp hnb
  · rw [List.mem_singleton] at hm
    subst hm
    have hnb : c ∈ after.takeWhile (fun c => ¬ isBracket c) :=
      List.drop_subset _ _ hc
    simpa using List.mem_takeWhile_imp hnb

theorem findMatches_chars (l : List Char) :
    ∀ m ∈ findMatches l, ∀ c ∈ m, isBracket c = false := by
  induction l with
  | nil => intro m hm; simp [findMatches] at hm
  | cons a rest ih =>
    intro m hm c hc
    rw [findMatches_cons] at hm
    rcases List.mem_append.1 hm with hml | hmr
    · cases hmt : matchTag (a :: rest) with
      | none => rw [hmt] at hml; simp at hml
      | some after =>
        rw [hmt] at hml
        exact groupOf_chars after m hml c hc
    · exact ih m hmr c hc

/-! ## Claim C7: untagged text through the codec -/

/-- C7 counterexample, evaluated: the text `" a"` contains no tag syntax,
yet `decode` does not return it unchanged — `clean_text_content` strips the
leading space (`encode(T, []) = T` does hold and is part of the amended
theorem). -/
theorem C7_counterexample :
    containsTag " a".data = false ∧ ¬ (clean_text_content " a" = " a") := by
  decide

/-- C7 amended: `encode(T, []) = T` for every text; and for every text
without tag syntax, `decode(T) = (T', [])` where `T'` is `T` with newline
runs collapsed and leading/trailing whitespace stripped (rather than `T`
itself). -/
theorem C7_codec_untagged (relpath : String → String) (T : String)
    (h : containsTag T.data = false) :
    format_cell_with_images relpath T [] = T ∧
    extract_image_paths T = [] ∧
    clean_text_content T = String.mk (pyStrip (collapseNL T.data)) := by
  refine ⟨rfl, ?_, ?_⟩
  · rw [extract_image_paths]
    by_cases h0 : T = ""
    · rw [if_pos h0]
    · rw [if_neg h0, findMatches_eq_nil_of_no_tag T.data h]
      rfl
  · rw [clean_text_content]
    by_cases h0 : T = ""
    · rw [if_pos h0, h0]
      rfl
    · rw [if_neg h0, removeTags, removeTags_eq_self T.data h]

/-- Witness for C7 at a concrete input. -/
theorem C7_codec_untagged_witness :
    containsTag "a b".data = false ∧
    extract_image_paths "a b" = [] ∧
    clean_text_content "a b" = String.mk (pyStrip (collapseNL "a b".data)) :=
  ⟨by decide, (C7_codec_untagged id "a b" (by decide)).2⟩

/-! ## Claim C10: invariants of extraction -/

/-- C10: `extract_image_paths` and `clean_text_content` are total; on falsy
input (`None` or `""`) they return `[]` and `""`; and every extracted path
is a non-empty string, already stripped of leading/trailing whitespace, and
contains none of the characters `[`, `]`, `;`. -/
theorem C10_extraction_invariants :
    extract_image_paths_opt none = [] ∧
    clean_text_content_opt none = "" ∧
    extract_image_paths "" = [] ∧
    clean_text_content "" = "" ∧
    ∀ (s p : String), p ∈ extract_image_paths s →
      p ≠ "" ∧ stripS p = p ∧
        ∀ c ∈ p.data, ¬ (c = '[') ∧ ¬ (c = ']') ∧ ¬ (c = ';') := by
  refine ⟨rfl, rfl, rfl, rfl, fun s p hp => ?_⟩
  rw [extract_image_paths] at hp
  by_cases h0 : s = ""
  · rw [if_pos h0] at hp; simp at hp
  · rw [if_neg h0] at hp
    obtain ⟨q, hq, rfl⟩ := List.mem_map.1 hp
    obtain ⟨pl, hpl, hqpl⟩ := List.mem_flatten.1 hq
    obtain ⟨m, hm, rfl⟩ := List.mem_map.1 hpl
    rw [List.mem_filter] at hqpl
    obtain ⟨hq1, hq2⟩ := hqpl
    obtain ⟨q0, hq0, rfl⟩ := List.mem_map.1 hq1
    refine ⟨?_, ?_, ?_⟩
    · intro hcon
      have := congrArg String.data hcon
      simp only at this
      rw [this] at hq2
      simp at hq2
    · rw [stripS]
      simp only
      rw [pyStrip_idem]
    · intro c hc
      simp only at hc
      have hc0 : c ∈ q0 := pyStrip_subset q0 c hc
      obtain ⟨hcm, hcsemi⟩ := splitSemi_chars m q0 hq0 c hc0
      have hbr := findMatches_chars s.data m hm c hcm
      simp only [isBracket, Bool.or_eq_false_iff, decide_eq_false_iff_not] at hbr
      exact ⟨hbr.1, hbr.2, hcsemi⟩

/-- Witness for C10 at a concrete input. -/
theorem C10_extraction_invariants_witness :
    "a.png" ∈ extract_image_paths "[IMG] a.png" ∧
    ("a.png" ≠ "" ∧ stripS "a.png" = "a.png" ∧
      ∀ c ∈ "a.png".data, ¬ (c = '[') ∧ ¬ (c = ']') ∧ ¬ (c = ';')) :=
  ⟨by decide,
   C10_extraction_invariants.2.2.2.2 "[IMG] a.png" "a.png" (by decide)⟩

/-! ## String plumbing lemmas -/

theorem string_mk_data (s : String) : String.mk s.data = s := by
  cases s; rfl

theorem string_eq_empty_iff (s : String) : s = "" ↔ s.data = [] := by
  constructor
  · intro h; rw [h]
  · intro h
    have h2 := congrArg String.mk h
    rw [string_mk_data] at h2
    exact h2

theorem stripS_data (p : String) (h : stripS p = p) : pyStrip p.data = p.data := by
  have h2 := congrArg String.data h
  simpa [stripS] using h2

theorem dropWhile_eq_self_of_pyStrip (l : List Char) (h : pyStrip l = l) :
    l.dropWhile isSpace = l := by
  have h1 : (pyStrip l).length ≤ (l.dropWhile isSpace).length := by
    rw [pyStrip]
    calc ((l.dropWhile isSpace).reverse.dropWhile isSpace).reverse.length
        = ((l.dropWhile isSpace).reverse.dropWhile isSpace).length :=
          List.length_reverse _
      _ ≤ (l.dropWhile isSpace).reverse.length :=
          (List.dropWhile_sublist _).length_le
      _ = (l.dropWhile isSpace).length := List.length_reverse _
  rw [h] at h1
  have h2 := List.dropWhile_sublist (l := l) isSpace
  exact h2.eq_of_length (le_antisymm h2.length_le h1)

theorem head_not_space (c : Char) (cs : List Char)
    (h : (c :: cs).dropWhile isSpace = c :: cs) : isSpace c = false := by
  by_contra hx
  rw [List.dropWhile_cons, if_pos (by simpa using hx)] at h
  have h2 := (List.dropWhile_sublist (l := cs) isSpace).length_le
  rw [h] at h2
  simp only [List.length_cons] at h2
  omega

theorem dropWhile_eq_self_of_head (p : Char → Bool) (l : List Char)
    (h : ∀ c, l.head? = some c → p c = false) : l.dropWhile p = l := by
  cases l with
  | nil => rfl
  | cons a t =>
    rw [List.dropWhile_cons, h a rfl]
    simp

theorem takeWhile_eq_nil_of_dropWhile_eq_self (l : List Char)
    (h : l.dropWhile isSpace = l) : l.takeWhile isSpace = [] := by
  have h2 := List.takeWhile_append_dropWhile isSpace l
  rw [h] at h2
  have h3 := congrArg List.length h2
  rw [List.length_append] at h3
  exact List.eq_nil_of_length_eq_zero (by omega)

/-! ## `collapseNL` lemmas -/

theorem collapseNL_cons_ne (c : Char) (t : List Char) (h : ¬ (c = '\n')) :
    collapseNL (c :: t) = c :: collapseNL t := by
  cases t with
  | nil => rfl
  | cons y r =>
    simp only [collapseNL, if_neg (show ¬ (c = '\n' ∧ y = '\n') from fun hh => h hh.1)]

theorem collapseNL_ne_nil (l : List Char) (h : ¬ (l = [])) : ¬ (collapseNL l = []) := by
  induction l with
  | nil => exact absurd rfl h
  | cons c t ih =>
    cases t with
    | nil => simp [collapseNL]
    | cons y r =>
      by_cases hc : c = '\n' ∧ y = '\n'
      · simp only [collapseNL, if_pos hc]
        exact ih (by simp)
      · simp only [collapseNL, if_neg hc]
        simp

theorem collapseNL_getLast (l : List Char) : (collapseNL l).getLast? = l.getLast? := by
  induction l with
  | nil => rfl
  | cons c t ih =>
    cases t with
    | nil => rfl
    | cons y r =>
      by_cases hc : c = '\n' ∧ y = '\n'
      · rw [show collapseNL (c :: y :: r) = collapseNL (y :: r) from by
          simp only [collapseNL, if_pos hc]]
        rw [ih, List.getLast?_cons_cons]
      · rw [show collapseNL (c :: y :: r) = c :: collapseNL (y :: r) from by
          simp only [collapseNL, if_neg hc]]
        rcases hne : collapseNL (y :: r) with _ | ⟨a, as⟩
        · exact absurd hne (collapseNL_ne_nil (y :: r) (by simp))
        · rw [List.getLast?_cons_cons, ← hne, ih, List.getLast?_cons_cons]

theorem collapseNL_append_newline (z : List Char) (h : ¬ (z.getLast? = some '\n')) :
    collapseNL (z ++ ['\n']) = collapseNL z ++ ['\n'] := by
  induction z with
  | nil => rfl
  | cons c t ih =>
    cases t with
    | nil =>
      have hc : ¬ (c = '\n') := by simpa using h
      simp [collapseNL, hc]
    | cons y r =>
      have h2 : ¬ ((y :: r).getLast? = some '\n') := by
        rw [List.getLast?_cons_cons] at h
        exact h
      by_cases hc : c = '\n' ∧ y = '\n'
      · have e1 : collapseNL ((c :: y :: r) ++ ['\n']) = collapseNL ((y :: r) ++ ['\n']) := by
          simp only [List.cons_append, collapseNL, if_pos hc]
          rfl
        rw [e1, ih h2, show collapseNL (c :: y :: r) = collapseNL (y :: r) from by
          simp only [collapseNL, if_pos hc]]
      · have e1 : collapseNL ((c :: y :: r) ++ ['\n']) =
            c :: collapseNL ((y :: r) ++ ['\n']) := by
          simp only [List.cons_append, collapseNL, if_neg hc]
          rfl
        rw [e1, ih h2, show collapseNL (c :: y :: r) = c :: collapseNL (y :: r) from by
          simp only [collapseNL, if_neg hc]]
        rfl

theorem pyStrip_append_space (w : List Char) (c : Char) (h : isSpace c = true) :
    pyStrip (w ++ [c]) = pyStrip w := by
  rw [pyStrip, pyStrip]
  congr 1
  induction w with
  | nil =>
    rw [List.nil_append, show List.dropWhile isSpace [c] = [] from by
      simp [List.dropWhile_cons, h]]
    rfl
  | cons a w2 ih =>
    by_cases ha : isSpace a
    · rw [List.cons_append, List.dropWhile_cons, if_pos ha, List.dropWhile_cons, if_pos ha]
      exact ih
    · rw [List.cons_append, List.dropWhile_cons, if_neg ha, List.dropWhile_cons, if_neg ha]
      rw [show (a :: (w2 ++ [c])).reverse = c :: (a :: w2).reverse from by simp]
      rw [List.dropWhile_cons, if_pos h]

theorem pyStrip_of_strip_collapse (z : List Char) (h : pyStrip z = z) :
    pyStrip (collapseNL z) = collapseNL z := by
  rw [pyStrip]
  have hfront : (collapseNL z).dropWhile isSpace = collapseNL z := by
    cases hz : z with
    | nil => rfl
    | cons c t =>
      have hdz : z.dropWhile isSpace = z := dropWhile_eq_self_of_pyStrip z h
      rw [hz] at hdz
      have hc : isSpace c = false := head_not_space c t hdz
      have hcn : ¬ (c = '\n') := by
        intro hcc
        rw [hcc] at hc
        simp [isSpace] at hc
      rw [collapseNL_cons_ne c t hcn, List.dropWhile_cons, hc]
      simp
  rw [hfront]
  have hback : (collapseNL z).reverse.dropWhile isSpace = (collapseNL z).reverse := by
    apply dropWhile_eq_self_of_head
    intro c hc
    rw [List.head?_reverse, collapseNL_getLast] at hc
    -- c is the last char of z, which is not whitespace since z is stripped
    cases hz : z with
    | nil => rw [hz] at hc; simp at hc
    | cons a t =>
      rw [hz] at hc
      -- z ends with c; use the reverse form of strippedness
      have hrev : z.reverse.dropWhile isSpace = z.reverse := by
        have h2 := congrArg List.reverse h
        rw [pyStrip, List.reverse_reverse] at h2
        have h3 : (z.dropWhile isSpace) = z := dropWhile_eq_self_of_pyStrip z h
        rw [h3] at h2
        exact h2
      have hlast : z.reverse.head? = some c := by
        rw [List.head?_reverse, hz]
        exact hc
      cases hzr : z.reverse with
      | nil => rw [hzr] at hlast; simp at hlast
      | cons b r =>
        rw [hzr] at hrev hlast
        have hb : b = c := by
          simp only [List.head?_cons, Option.some.injEq] at hlast
          exact hlast
        rw [← hb]
        exact head_not_space b r hrev
  rw [hback, List.reverse_reverse]

/-! ## Evaluating the extraction scanner on encoder output -/

theorem takeWhile_eq_self_of_all (p : Char → Bool) (l : List Char)
    (h : ∀ c ∈ l, p c = true) : l.takeWhile p = l := by
  induction l with
  | nil => rfl
  | cons a t ih =>
    rw [List.takeWhile_cons, if_pos (h a (List.mem_cons_self a t)),
      ih fun c hc => h c (List.mem_cons_of_mem a hc)]

theorem splitSemi_no_semi (l : List Char) (h : ∀ c ∈ l, ¬ (c = ';')) :
    splitSemi l = [l] := by
  induction l with
  | nil => rfl
  | cons a t ih =>
    rw [splitSemi, if_neg (h a (List.mem_cons_self a t)),
      ih fun c hc => h c (List.mem_cons_of_mem a hc)]
    rfl

theorem splitSemi_append_no_semi (xs ys : List Char) (y : List Char)
    (t : List (List Char))
    (hx : ∀ c ∈ xs, ¬ (c = ';')) (hys : splitSemi ys = y :: t) :
    splitSemi (xs ++ ys) = (xs ++ y) :: t := by
  induction xs with
  | nil => simpa using hys
  | cons a xs2 ih =>
    rw [List.cons_append, splitSemi, if_neg (hx a (List.mem_cons_self a xs2)),
      ih fun c hc => hx c (List.mem_cons_of_mem a hc)]
    rfl

theorem joinPaths_data_cons (p q : String) (rest : List String) :
    (joinPaths (p :: q :: rest)).data =
      p.data ++ ';' :: ' ' :: (joinPaths (q :: rest)).data := by
  rw [joinPaths]
  rw [String.data_append, String.data_append]
  rw [show ("; " : String).data = [';', ' '] from rfl, List.append_assoc]
  rfl
  simp

theorem joinPaths_chars (ps : List String) :
    ∀ c ∈ (joinPaths ps).data, (∃ p ∈ ps, c ∈ p.data) ∨ c = ';' ∨ c = ' ' := by
  induction ps with
  | nil => intro c hc; simp [joinPaths] at hc
  | cons p rest ih =>
    cases rest with
    | nil =>
      intro c hc
      rw [joinPaths] at hc
      exact Or.inl ⟨p, List.mem_singleton.2 rfl, hc⟩
    | cons q rest2 =>
      intro c hc
      rw [joinPaths_data_cons] at hc
      rcases List.mem_append.1 hc with hcl | hcr
      · exact Or.inl ⟨p, List.mem_cons_self p _, hcl⟩
      · rcases List.mem_cons.1 hcr with rfl | hcr2
        · exact Or.inr (Or.inl rfl)
        · rcases List.mem_cons.1 hcr2 with rfl | hcr3
          · exact Or.inr (Or.inr rfl)
          · rcases ih c hcr3 with ⟨p2, hp2, hcp2⟩ | hsn
            · exact Or.inl ⟨p2, List.mem_cons_of_mem p hp2, hcp2⟩
            · exact Or.inr hsn

theorem splitSemi_joinPaths (p : String) (rest : List String)
    (h : ∀ q ∈ p :: rest, ∀ c ∈ q.data, ¬ (c = ';')) :
    splitSemi (joinPaths (p :: rest)).data =
      p.data :: rest.map (fun q => ' ' :: q.data) := by
  induction rest generalizing p with
  | nil =>
    rw [joinPaths, List.map_nil]
    exact splitSemi_no_semi p.data (h p (List.mem_cons_self p []))
  | cons q rest2 ih =>
    rw [joinPaths_data_cons]
    have hinner := ih q fun r hr => h r (List.mem_cons_of_mem p hr)
    have hsp : splitSemi (';' :: ' ' :: (joinPaths (q :: rest2)).data) =
        [] :: (' ' :: q.data) :: rest2.map (fun r => ' ' :: r.data) := by
      rw [splitSemi, if_pos rfl, splitSemi,
        if_neg (show ¬ (' ' = ';') from by decide), hinner]
      rfl
    rw [splitSemi_append_no_semi p.data (';' :: ' ' :: (joinPaths (q :: rest2)).data)
      [] ((' ' :: q.data) :: rest2.map (fun r => ' ' :: r.data))
      (h p (List.mem_cons_self p _)) hsp]
    simp

theorem groupOf_space_body (q : List Char) (hq : ¬ (q = []))
    (hhead : q.takeWhile isSpace = [])
    (hbr : ∀ c ∈ q, isBracket c = false) :
    groupOf (' ' :: q) = [q] := by
  rw [groupOf]
  have hnb : (' ' :: q).takeWhile (fun c => ¬ isBracket c) = ' ' :: q := by
    apply takeWhile_eq_self_of_all
    intro c hc
    rcases List.mem_cons.1 hc with rfl | hc2
    · decide
    · simp [hbr c hc2]
  simp only [hnb]
  have hws : (' ' :: q).takeWhile isSpace = [' '] := by
    rw [List.takeWhile_cons, show isSpace ' ' = true from by decide, hhead]
    rfl
  simp only [hws]
  rw [if_neg (by simp), if_neg]
  · rfl
  · intro hlen
    simp only [List.length_cons, List.length_nil] at hlen
    exact hq (List.eq_nil_of_length_eq_zero (by omega))

theorem pyStrip_cons_space (l : List Char) : pyStrip (' ' :: l) = pyStrip l := by
  rw [pyStrip, pyStrip, List.dropWhile_cons, if_pos (show isSpace ' ' = true from by decide)]

theorem pyStrip_rev_dropWhile (z : List Char) (h : pyStrip z = z) :
    z.reverse.dropWhile isSpace = z.reverse := by
  have h2 := congrArg List.reverse h
  rw [pyStrip, List.reverse_reverse] at h2
  rw [dropWhile_eq_self_of_pyStrip z h] at h2
  exact h2

theorem getLast_not_space (z : List Char) (h : pyStrip z = z) (c : Char)
    (hc : z.getLast? = some c) : isSpace c = false := by
  have hrev := pyStrip_rev_dropWhile z h
  cases hzr : z.reverse with
  | nil =>
    have hz : z = [] := by
      have h3 := congrArg List.reverse hzr
      rwa [List.reverse_reverse] at h3
    rw [hz] at hc
    simp at hc
  | cons b r =>
    rw [hzr] at hrev
    have hb : b = c := by
      have h4 := List.head?_reverse z
      rw [hzr, hc] at h4
      simpa using h4
    rw [← hb]
    exact head_not_space b r hrev

theorem tag_data_IMG (p : String) :
    ("[IMG] " ++ p).data = '[' :: 'I' :: 'M' :: 'G' :: ']' :: ' ' :: p.data := by
  rw [String.data_append]
  rfl

theorem tag_data_IMGS (s : String) :
    ("[IMGS] " ++ s).data = '[' :: 'I' :: 'M' :: 'G' :: 'S' :: ']' :: ' ' :: s.data := by
  rw [String.data_append]
  rfl

theorem findMatches_tag_single (p : String) (hne : ¬ (p = ""))
    (hstrip : stripS p = p)
    (hchars : ∀ c ∈ p.data, ¬ (c = '[') ∧ ¬ (c = ']') ∧ ¬ (c = ';')) :
    findMatches ("[IMG] " ++ p).data = [p.data] := by
  rw [tag_data_IMG]
  rw [findMatches_cons, matchTag_IMG]
  have htail : findMatches ('I' :: 'M' :: 'G' :: ']' :: ' ' :: p.data) = [] := by
    apply findMatches_eq_nil
    intro c hc
    simp only [List.mem_cons] at hc
    rcases hc with rfl | rfl | rfl | rfl | rfl | hc
    · decide
    · decide
    · decide
    · decide
    · decide
    · exact (hchars c hc).1
  rw [htail]
  have hpd : ¬ (p.data = []) := fun hh => hne ((string_eq_empty_iff p).2 hh)
  have hdw : p.data.dropWhile isSpace = p.data :=
    dropWhile_eq_self_of_pyStrip p.data (stripS_data p hstrip)
  show groupOf (' ' :: p.data) ++ [] = [p.data]
  rw [groupOf_space_body p.data hpd (takeWhile_eq_nil_of_dropWhile_eq_self p.data hdw)
    (fun c hc => by simp [isBracket, (hchars c hc).1, (hchars c hc).2.1])]
  rfl

theorem joinPaths_data_ne_nil (p q : String) (rest : List String) :
    ¬ ((joinPaths (p :: q :: rest)).data = []) := by
  rw [joinPaths_data_cons]
  simp

theorem joinPaths_no_lbracket (ps : List String)
    (h : ∀ r ∈ ps, ∀ c ∈ r.data, ¬ (c = '[') ∧ ¬ (c = ']')) :
    ∀ c ∈ (joinPaths ps).data, ¬ (c = '[') := by
  intro c hc
  rcases joinPaths_chars ps c hc with ⟨r, hr, hcr⟩ | hs | hsp
  · exact (h r hr c hcr).1
  · rw [hs]; decide
  · rw [hsp]; decide

theorem joinPaths_no_bracket (ps : List String)
    (h : ∀ r ∈ ps, ∀ c ∈ r.data, ¬ (c = '[') ∧ ¬ (c = ']')) :
    ∀ c ∈ (joinPaths ps).data, isBracket c = false := by
  intro c hc
  rcases joinPaths_chars ps c hc with ⟨r, hr, hcr⟩ | hs | hsp
  · simp [isBracket, (h r hr c hcr).1, (h r hr c hcr).2]
  · rw [hs]; decide
  · rw [hsp]; decide

theorem joinPaths_head_no_space (p : String) (rest : List String) (hne : ¬ (p = ""))
    (hstrip : stripS p = p) :
    (joinPaths (p :: rest)).data.takeWhile isSpace = [] := by
  have hpd : ¬ (p.data = []) := fun hh => hne ((string_eq_empty_iff p).2 hh)
  have hdw : p.data.dropWhile isSpace = p.data :=
    dropWhile_eq_self_of_pyStrip p.data (stripS_data p hstrip)
  cases rest with
  | nil =>
    rw [joinPaths]
    exact takeWhile_eq_nil_of_dropWhile_eq_self p.data hdw
  | cons q rest2 =>
    rw [joinPaths_data_cons]
    cases hpdc : p.data with
    | nil => exact absurd hpdc hpd
    | cons a t =>
      rw [hpdc] at hdw
      have ha : isSpace a = false := head_not_space a t hdw
      rw [List.cons_append, List.takeWhile_cons, ha]
      rfl

theorem findMatches_tag_multi (p q : String) (rest : List String)
    (hP : ∀ r ∈ p :: q :: rest, ¬ (r = "") ∧ stripS r = r ∧
      ∀ c ∈ r.data, ¬ (c = '[') ∧ ¬ (c = ']') ∧ ¬ (c = ';')) :
    findMatches ("[IMGS] " ++ joinPaths (p :: q :: rest)).data =
      [(joinPaths (p :: q :: rest)).data] := by
  have hbr : ∀ r ∈ p :: q :: rest, ∀ c ∈ r.data, ¬ (c = '[') ∧ ¬ (c = ']') :=
    fun r hr c hc => ⟨((hP r hr).2.2 c hc).1, ((hP r hr).2.2 c hc).2.1⟩
  rw [tag_data_IMGS]
  rw [findMatches_cons, matchTag_IMGS]
  have htail : findMatches
      ('I' :: 'M' :: 'G' :: 'S' :: ']' :: ' ' :: (joinPaths (p :: q :: rest)).data) = [] := by
    apply findMatches_eq_nil
    intro c hc
    simp only [List.mem_cons] at hc
    rcases hc with rfl | rfl | rfl | rfl | rfl | rfl | hc
    · decide
    · decide
    · decide
    · decide
    · decide
    · decide
    · exact joinPaths_no_lbracket (p :: q :: rest) hbr c hc
  rw [htail]
  show groupOf (' ' :: (joinPaths (p :: q :: rest)).data) ++ [] =
    [(joinPaths (p :: q :: rest)).data]
  rw [groupOf_space_body (joinPaths (p :: q :: rest)).data
    (joinPaths_data_ne_nil p q rest)
    (joinPaths_head_no_space p (q :: rest) (hP p (List.mem_cons_self p _)).1
      (hP p (List.mem_cons_self p _)).2.1)
    (joinPaths_no_bracket (p :: q :: rest) hbr)]
  rfl

theorem removeTags_tag_single (p : String)
    (hch : ∀ c ∈ p.data, ¬ (c = '[') ∧ ¬ (c = ']')) :
    removeTagsGo false ("[IMG] " ++ p).data = [] := by
  rw [tag_data_IMG]
  show removeTagsGo true (' ' :: p.data) = []
  apply removeTagsGo_skip_eq_nil
  intro c hc
  rcases List.mem_cons.1 hc with rfl | hc2
  · decide
  · simp [isBracket, (hch c hc2).1, (hch c hc2).2]

theorem removeTags_tag_multi (p q : String) (rest : List String)
    (hbr : ∀ r ∈ p :: q :: rest, ∀ c ∈ r.data, ¬ (c = '[') ∧ ¬ (c = ']')) :
    removeTagsGo false ("[IMGS] " ++ joinPaths (p :: q :: rest)).data = [] := by
  rw [tag_data_IMGS]
  show removeTagsGo true (' ' :: (joinPaths (p :: q :: rest)).data) = []
  apply removeTagsGo_skip_eq_nil
  intro c hc
  rcases List.mem_cons.1 hc with rfl | hc2
  · decide
  · simp [joinPaths_no_bracket (p :: q :: rest) hbr c hc2]

theorem extract_pieces_single (p : String) (hne : ¬ (p = ""))
    (hstrip : stripS p = p)
    (hchars : ∀ c ∈ p.data, ¬ (c = ';')) :
    ((splitSemi p.data).map pyStrip).filter (fun x => ¬ (x = [])) = [p.data] := by
  rw [splitSemi_no_semi p.data hchars, List.map_singleton, stripS_data p hstrip]
  have hpd : ¬ (p.data = []) := fun hh => hne ((string_eq_empty_iff p).2 hh)
  simp [hpd]

theorem extract_pieces_multi (p q : String) (rest : List String)
    (hP : ∀ r ∈ p :: q :: rest, ¬ (r = "") ∧ stripS r = r ∧
      ∀ c ∈ r.data, ¬ (c = ';')) :
    ((splitSemi (joinPaths (p :: q :: rest)).data).map pyStrip).filter
        (fun x => ¬ (x = [])) =
      (p :: q :: rest).map String.data := by
  rw [splitSemi_joinPaths p (q :: rest)
    (fun r hr => (hP r hr).2.2)]
  rw [List.map_cons, stripS_data p (hP p (List.mem_cons_self p _)).2.1, List.map_map]
  have hmap : (q :: rest).map (pyStrip ∘ fun r => ' ' :: r.data) =
      (q :: rest).map String.data := by
    apply List.map_congr_left
    intro r hr
    show pyStrip (' ' :: r.data) = r.data
    rw [pyStrip_cons_space,
      stripS_data r (hP r (List.mem_cons_of_mem p hr)).2.1]
  rw [hmap]
  rw [show (p :: q :: rest).map String.data = p.data :: (q :: rest).map String.data from
    rfl]
  rw [List.filter_eq_self]
  intro x hx
  rcases List.mem_cons.1 hx with rfl | hx2
  · have : ¬ (p.data = []) :=
      fun hh => (hP p (List.mem_cons_self p _)).1 ((string_eq_empty_iff p).2 hh)
    simpa using this
  · obtain ⟨r, hr, rfl⟩ := List.mem_map.1 hx2
    have : ¬ (r.data = []) :=
      fun hh => (hP r (List.mem_cons_of_mem p hr)).1 ((string_eq_empty_iff r).2 hh)
    simpa using this

theorem encode_data_with_text (T tagstr : String) :
    (stripS T ++ "\n" ++ tagstr).data = pyStrip T.data ++ '\n' :: tagstr.data := by
  rw [String.data_append, String.data_append,
    show ("\n" : String).data = ['\n'] from rfl,
    show (stripS T).data = pyStrip T.data from rfl, List.append_assoc]
  rfl

theorem extract_prefix_text (T tagstr : String)
    (hT : ∀ c ∈ T.data, ¬ (c = '[')) :
    findMatches (stripS T ++ "\n" ++ tagstr).data = findMatches tagstr.data := by
  rw [encode_data_with_text,
    show pyStrip T.data ++ '\n' :: tagstr.data =
      (pyStrip T.data ++ ['\n']) ++ tagstr.data from by simp]
  apply findMatches_append
  intro c hc
  rcases List.mem_append.1 hc with hcz | hcn
  · exact hT c (pyStrip_subset T.data c hcz)
  · rw [List.mem_singleton.1 hcn]; decide

theorem clean_encode_with_text (T tagstr : String)
    (hT : ∀ c ∈ T.data, ¬ (c = '['))
    (htag : removeTagsGo false tagstr.data = []) :
    pyStrip (collapseNL (removeTagsGo false (stripS T ++ "\n" ++ tagstr).data)) =
      collapseNL (pyStrip T.data) := by
  rw [encode_data_with_text]
  rw [removeTagsGo_append (pyStrip T.data) ('\n' :: tagstr.data)
    (fun c hc => hT c (pyStrip_subset T.data c hc))]
  rw [removeTagsGo_false_cons '\n' tagstr.data (by decide), htag]
  have hz : pyStrip (pyStrip T.data) = pyStrip T.data := pyStrip_idem T.data
  rw [collapseNL_append_newline (pyStrip T.data) (fun hlast => by
    have h2 := getLast_not_space (pyStrip T.data) hz '\n' hlast
    simp [isSpace] at h2)]
  rw [pyStrip_append_space _ '\n' (by decide)]
  exact pyStrip_of_strip_collapse (pyStrip T.data) hz

/-! ## Claim C1: round-trip of the codec -/

/-- C1 counterexample, evaluated: for `T = "a\n\nb"` (its own trim, and free
of any tag syntax) and the single relative path `"p"` (no `;`),
`clean_text_content (format_cell_with_images T ["p"])` returns `"a\nb"` —
the blank line of `T` is collapsed — so `decode (encode (T, I))` is not
`(trim T, I)`. -/
theorem C1_counterexample :
    stripS "a\n\nb" = "a\n\nb" ∧
    isabs "p" = false ∧ (∀ c ∈ ("p" : String).data, ¬ (c = ';')) ∧
    ¬ (clean_text_content (format_cell_with_images id "a\n\nb" ["p"]) = "a\n\nb") := by
  decide

/-- C1 amended: for every text `T` containing neither `[` nor `]`, and every
non-empty list `I` of paths that are non-empty, already stripped, relative,
and free of `[`, `]` and `;`, decoding the encoded cell yields exactly `I`
together with the trimmed text with newline runs collapsed (the collapsing
being the amendment forced by the counterexample). -/
theorem C1_codec_roundtrip (relpath : String → String) (T : String) (I : List String)
    (hI : ¬ (I = []))
    (hT : ∀ c ∈ T.data, ¬ (c = '[') ∧ ¬ (c = ']'))
    (hP : ∀ p ∈ I, ¬ (p = "") ∧ stripS p = p ∧ isabs p = false ∧
      ∀ c ∈ p.data, ¬ (c = '[') ∧ ¬ (c = ']') ∧ ¬ (c = ';')) :
    extract_image_paths (format_cell_with_images relpath T I) = I ∧
    clean_text_content (format_cell_with_images relpath T I) =
      String.mk (collapseNL (pyStrip T.data)) := by
  have hrel : I.map (fun p => if isabs p then relpath p else p) = I := by
    have h1 : I.map (fun p => if isabs p then relpath p else p) = I.map id :=
      List.map_congr_left fun p hp => by simp [(hP p hp).2.2.1]
    rw [h1, List.map_id]
  obtain ⟨tagstr, hfmt, hfm, hrm, htagne⟩ :
      ∃ tagstr : String,
        format_cell_with_images relpath T I =
          (if T ≠ "" ∧ stripS T ≠ "" then stripS T ++ "\n" ++ tagstr else tagstr) ∧
        (((findMatches tagstr.data).map
            (fun m => ((splitSemi m).map pyStrip).filter (fun x => ¬ (x = [])))).flatten)
          = I.map String.data ∧
        removeTagsGo false tagstr.data = [] ∧
        ¬ (tagstr.data = []) := by
    rcases I with _ | ⟨p, rest⟩
    · exact absurd rfl hI
    rcases rest with _ | ⟨q, rest2⟩
    · have hp := hP p (List.mem_cons_self p [])
      refine ⟨"[IMG] " ++ p, ?_, ?_, ?_, ?_⟩
      · simp only [format_cell_with_images]
        rw [if_neg (show ¬ ([p] = ([] : List String)) from by simp)]
        simp only [hrel]
      · rw [findMatches_tag_single p hp.1 hp.2.1 hp.2.2.2]
        simp only [List.map_singleton]
        rw [extract_pieces_single p hp.1 hp.2.1 (fun c hc => (hp.2.2.2 c hc).2.2)]
        simp
      · exact removeTags_tag_single p
          (fun c hc => ⟨(hp.2.2.2 c hc).1, (hp.2.2.2 c hc).2.1⟩)
      · rw [tag_data_IMG]
        simp
    · have hP2 : ∀ r ∈ p :: q :: rest2, ¬ (r = "") ∧ stripS r = r ∧
          ∀ c ∈ r.data, ¬ (c = '[') ∧ ¬ (c = ']') ∧ ¬ (c = ';') :=
        fun r hr => ⟨(hP r hr).1, (hP r hr).2.1, (hP r hr).2.2.2⟩
      refine ⟨"[IMGS] " ++ joinPaths (p :: q :: rest2), ?_, ?_, ?_, ?_⟩
      · simp only [format_cell_with_images]
        rw [if_neg (show ¬ (p :: q :: rest2 = ([] : List String)) from by simp)]
        simp only [hrel]
      · rw [findMatches_tag_multi p q rest2 hP2]
        simp only [List.map_singleton]
        rw [extract_pieces_multi p q rest2
          (fun r hr => ⟨(hP2 r hr).1, (hP2 r hr).2.1,
            fun c hc => ((hP2 r hr).2.2 c hc).2.2⟩)]
        simp
      · exact removeTags_tag_multi p q rest2
          (fun r hr c hc => ⟨((hP2 r hr).2.2 c hc).1, ((hP2 r hr).2.2 c hc).2.1⟩)
      · rw [tag_data_IMGS]
        simp
  have hMkId : (I.map String.data).map String.mk = I := by
    rw [List.map_map]
    have h2 : I.map (String.mk ∘ String.data) = I.map id :=
      List.map_congr_left fun s _ => string_mk_data s
    rw [h2, List.map_id]
  by_cases hcond : T ≠ "" ∧ stripS T ≠ ""
  · rw [hfmt, if_pos hcond]
    have hSne : ¬ ((stripS T ++ "\n" ++ tagstr) = "") := by
      rw [string_eq_empty_iff, encode_data_with_text]
      simp
    constructor
    · rw [extract_image_paths, if_neg hSne,
        extract_prefix_text T tagstr (fun c hc => (hT c hc).1), hfm, hMkId]
    · rw [clean_text_content, if_neg hSne, removeTags,
        clean_encode_with_text T tagstr (fun c hc => (hT c hc).1) hrm]
  · rw [hfmt, if_neg hcond]
    have hz : pyStrip T.data = [] := by
      rcases not_and_or.1 hcond with h0 | h0
      · push_neg at h0
        rw [(string_eq_empty_iff T).1 h0]
        rfl
      · push_neg at h0
        have h3 := congrArg String.data h0
        simpa [stripS] using h3
    have htne : ¬ (tagstr = "") := fun hh => htagne ((string_eq_empty_iff tagstr).1 hh)
    constructor
    · rw [extract_image_paths, if_neg htne, hfm, hMkId]
    · rw [clean_text_content, if_neg htne, removeTags, hrm, hz]
      rfl

/-- Witness for C1 at a concrete input: text plus two images. -/
theorem C1_codec_roundtrip_witness :
    extract_image_paths (format_cell_with_images id "hello" ["a.png", "b.png"]) =
      ["a.png", "b.png"] ∧
    clean_text_content (format_cell_with_images id "hello" ["a.png", "b.png"]) =
      String.mk (collapseNL (pyStrip "hello".data)) :=
  C1_codec_roundtrip id "hello" ["a.png", "b.png"] (by decide) (by decide) (by decide)

/-! ## Claim C9: wiki data rows and the attachment list -/

theorem leChars_total (a b : List Char) : leChars a b = true ∨ leChars b a = true := by
  induction a generalizing b with
  | nil => left; rfl
  | cons x xs ih =>
    cases b with
    | nil => right; rfl
    | cons y ys =>
      rcases lt_trichotomy x y with h | h | h
      · left; simp [leChars, h]
      · subst h
        rcases ih ys with h2 | h2
        · left; simp [leChars, lt_irrefl, h2]
        · right; simp [leChars, lt_irrefl, h2]
      · right; simp [leChars, h]

theorem leChars_trans (a b c : List Char) (h1 : leChars a b = true)
    (h2 : leChars b c = true) : leChars a c = true := by
  induction a generalizing b c with
  | nil => rfl
  | cons x xs ih =>
    cases b with
    | nil => simp [leChars] at h1
    | cons y ys =>
      cases c with
      | nil => simp [leChars] at h2
      | cons z zs =>
        by_cases hxy : x < y
        · by_cases hyz : y < z
          · have hxz : x < z := lt_trans hxy hyz
            simp [leChars, hxz]
          · by_cases hzy : z < y
            · simp [leChars, hyz, hzy] at h2
            · have hyez : y = z := le_antisymm (not_lt.1 hzy) (not_lt.1 hyz)
              subst hyez
              simp [leChars, hxy]
        · by_cases hyx : y < x
          · simp [leChars, hxy, hyx] at h1
          · have hxey : x = y := le_antisymm (not_lt.1 hyx) (not_lt.1 hxy)
            subst hxey
            simp only [leChars, lt_irrefl, if_neg (lt_irrefl x)] at h1
            by_cases hxz : x < z
            · simp [leChars, hxz]
            · by_cases hzx : z < x
              · simp [leChars, hxz, hzx] at h2
              · have hxez : x = z := le_antisymm (not_lt.1 hzx) (not_lt.1 hxz)
                subst hxez
                simp only [leChars, lt_irrefl, if_neg (lt_irrefl x)] at h2 ⊢
                exact ih ys zs h1 h2

instance : IsTotal String leStr := ⟨fun a b => leChars_total a.data b.data⟩

instance : IsTrans String leStr := ⟨fun a b c => leChars_trans a.data b.data c.data⟩

/-- C9: the wiki renderer's output decomposes as title, header row, one
rendered data row for exactly those grid rows with at least one truthy raw
cell, and the attachment section; the attachment list is sorted in the
code-point order Python's `sorted` uses, has no duplicate basename, and
every listed basename comes from an image referenced by some truthy cell of
the grid whose path passes the `os.path.exists` check. -/
theorem C9_wiki_renderer (ex : String → Bool) (headers : List String)
    (data : List (List String)) :
    get_wiki_content ex headers data =
      "h2. 表格数据\n\n" ++ ("||" ++ String.intercalate "||" headers ++ "||\n")
        ++ String.join
          ((data.filter (fun row => row.any (fun cell => ¬ (cell = "")))).map
            (fun row => "|" ++ String.intercalate "|" (row.map (renderCell ex)) ++ "|\n"))
        ++ "\nh3. 图片文件\n" ++ "请将以下图片文件上传到Confluence页面的附件中：\n\n"
        ++ String.join ((sortedSet (collectImages ex data)).map
            (fun f => "* " ++ f ++ "\n")) ∧
    List.Sorted leStr (sortedSet (collectImages ex data)) ∧
    (sortedSet (collectImages ex data)).Nodup ∧
    ∀ f ∈ sortedSet (collectImages ex data),
      ∃ row ∈ data, ∃ cell ∈ row, ¬ (cell = "") ∧
        ∃ path ∈ extract_image_paths cell, ex path = true ∧ basename path = f := by
  refine ⟨?_, ?_, ?_, ?_⟩
  · rw [get_wiki_content]
  · exact List.sorted_insertionSort leStr (collectImages ex data).dedup
  · exact ((List.perm_insertionSort leStr (collectImages ex data).dedup).symm).nodup
      (List.nodup_dedup (collectImages ex data))
  · intro f hf
    have hf2 : f ∈ (collectImages ex data).dedup :=
      (List.perm_insertionSort leStr (collectImages ex data).dedup).mem_iff.1 hf
    have hf3 : f ∈ collectImages ex data := List.mem_dedup.1 hf2
    rw [collectImages] at hf3
    obtain ⟨l1, hl1, hfl1⟩ := List.mem_flatten.1 hf3
    obtain ⟨row, hrow, rfl⟩ := List.mem_map.1 hl1
    obtain ⟨l2, hl2, hfl2⟩ := List.mem_flatten.1 hfl1
    obtain ⟨cell, hcell, rfl⟩ := List.mem_map.1 hl2
    by_cases h0 : cell = ""
    · rw [if_pos h0] at hfl2
      simp at hfl2
    · rw [if_neg h0] at hfl2
      obtain ⟨path, hpath, rfl⟩ := List.mem_map.1 hfl2
      rw [List.mem_filter] at hpath
      exact ⟨row, hrow, cell, hcell, h0, path, hpath.1, hpath.2, rfl⟩

/-- Witness for C9: a one-cell grid referencing one existing image. -/
theorem C9_wiki_renderer_witness :
    "a.png" ∈ sortedSet (collectImages (fun p => p == "img/a.png")
      [["x\n[IMG] img/a.png"]]) ∧
    (∃ row ∈ [["x\n[IMG] img/a.png"]], ∃ cell ∈ row, ¬ (cell = "") ∧
      ∃ path ∈ extract_image_paths cell,
        (fun p => p == "img/a.png") path = true ∧ basename path = "a.png") :=
  ⟨by decide,
   (C9_wiki_renderer (fun p => p == "img/a.png") ["A"]
     [["x\n[IMG] img/a.png"]]).2.2.2 "a.png" (by decide)⟩
